import Mathlib

/-!
Verification of the cookbook parsing/validation pipeline (`cookbook/parser.py`).

Lines of recipe text are modelled as `List Char`.  The two Python regular
expressions used by `Ingredient.__init__` and `Step.__init__` are embedded as
deterministic matching functions: every sub-pattern after the leading id token
is nullable, so the Python engine never backtracks across group boundaries and
each group is the greedy run the corresponding function computes.
-/

deriving instance DecidableEq for Except

namespace Cookbook

/-- The exception taxonomy of `parser.py`.  `keyError` and `pyError` model the
plain Python exceptions (`KeyError`, YAML/type errors) that are not subclasses
of `CookbookException`. -/
inductive CookErr where
  | ingredientErr (msg : List Char)
  | stepErr (msg : List Char)
  | recipeErr (msg : List Char)
  | keyError (key : List Char)
  | pyError (msg : List Char)
deriving DecidableEq

/-- Whether the exception is a `CookbookException` subclass (caught by the
first `except` clause of `_process_file`). -/
def CookErr.isCookbook : CookErr → Bool
  | .ingredientErr _ => true
  | .stepErr _ => true
  | .recipeErr _ => true
  | .keyError _ => false
  | .pyError _ => false

/-- Python truthiness of an optional string: `None` and the empty string are
falsy. -/
def truthy : Option (List Char) → Bool
  | none => false
  | some l => !l.isEmpty

/-- Python `str.strip('.')`: remove leading and trailing dots. -/
def stripDots (l : List Char) : List Char :=
  ((l.dropWhile (fun c => c == '.')).reverse.dropWhile (fun c => c == '.')).reverse

/-- The optional parenthesized group of both regexes, the sub-pattern
of form open-paren, one or more non-close-paren characters, close-paren.
Returns the group's content and the remaining input; on failure the group
matches empty and the input is returned unchanged. -/
def parenGroup (s : List Char) : Option (List Char) × List Char :=
  match s with
  | '(' :: t =>
    let q := t.takeWhile (fun c => c != ')')
    let r := t.dropWhile (fun c => c != ')')
    match q, r with
    | _ :: _, ')' :: r2 => (some q, r2)
    | _, _ => (none, s)
  | _ => (none, s)

/-- The optional semicolon-led tail shared by both regexes: a semicolon,
greedy spaces, then a dot-star group that stops at a newline.  The argument is
the input left after the name/action group (which has already consumed every
leading non-semicolon character). -/
def detailsMatch (s : List Char) : Option (List Char) :=
  match s with
  | ';' :: t => some ((t.dropWhile (fun c => c == ' ')).takeWhile (fun c => c != '\n'))
  | _ => none

/-- The named groups produced by the `Ingredient` regex. -/
structure IngFields where
  idg : List Char
  quantity : Option (List Char)
  name : Option (List Char)
  details : Option (List Char)
deriving DecidableEq

/-- `re.match` of the `Ingredient` pattern: a required leading run of
uppercase letters followed by a dot, then spaces, an optional parenthesized
quantity, spaces, an optional run of non-semicolon characters (the name),
spaces, and an optional semicolon-led details tail whose dot-star stops at a
newline.  Returns `none` exactly when the required id token is absent. -/
def ingMatch (s : List Char) : Option IngFields :=
  let run := s.takeWhile Char.isUpper
  match run, s.dropWhile Char.isUpper with
  | _ :: _, '.' :: r1 =>
    let r2 := r1.dropWhile (fun c => c == ' ')
    let pg := parenGroup r2
    let r4 := pg.2.dropWhile (fun c => c == ' ')
    let nm := r4.takeWhile (fun c => c != ';')
    let r5 := r4.dropWhile (fun c => c != ';')
    let r6 := r5.dropWhile (fun c => c == ' ')
    some ⟨run ++ ['.'], pg.1, if nm.isEmpty then none else some nm, detailsMatch r6⟩
  | _, _ => none

/-- The `Ingredient` record: id (dots stripped), quantity, name, optional
details. -/
structure Ingredient where
  id : List Char
  quantity : List Char
  name : List Char
  details : Option (List Char)
deriving DecidableEq

def invalidIngredientMsg (data : List Char) : List Char :=
  "invalid ingredient definition: ".data ++ data

def missingIngredientIdMsg (data : List Char) : List Char :=
  "missing ingredient id: ".data ++ data

def missingQuantityMsg (data : List Char) : List Char :=
  "missing ingredient quantity: ".data ++ data

def missingIngredientNameMsg (data : List Char) : List Char :=
  "missing ingredient name: ".data ++ data

/-- `Ingredient.__init__`: match the pattern, then check id, quantity and name
truthiness in that order; details stay optional. -/
def Ingredient.make (data : List Char) : Except CookErr Ingredient :=
  match ingMatch data with
  | none => .error (.ingredientErr (invalidIngredientMsg data))
  | some m =>
    if m.idg.isEmpty then .error (.ingredientErr (missingIngredientIdMsg data))
    else if truthy m.quantity then
      if truthy m.name then
        .ok ⟨stripDots m.idg, m.quantity.getD [], m.name.getD [], m.details⟩
      else .error (.ingredientErr (missingIngredientNameMsg data))
    else .error (.ingredientErr (missingQuantityMsg data))

/-- `Ingredient.__str__`: the details tail is emitted only when truthy. -/
def Ingredient.str (i : Ingredient) : List Char :=
  let details := if truthy i.details then "; ".data ++ i.details.getD [] else []
  i.id ++ ". (".data ++ i.quantity ++ ") ".data ++ i.name ++ details

/-- The named groups produced by the `Step` regex. -/
structure StepFields where
  idg : Option (List Char)
  quantities : Option (List Char)
  action : Option (List Char)
  details : Option (List Char)
deriving DecidableEq

/-- `re.match` of the `Step` pattern.  Every sub-pattern (including the id) is
nullable, so the match always succeeds; the function is total. -/
def stepMatch (s : List Char) : StepFields :=
  let run := s.takeWhile Char.isDigit
  let idp : Option (List Char) × List Char :=
    match run, s.dropWhile Char.isDigit with
    | _ :: _, '.' :: r => (some (run ++ ['.']), r)
    | _, _ => (none, s)
  let r2 := idp.2.dropWhile (fun c => c == ' ')
  let pg := parenGroup r2
  let r4 := pg.2.dropWhile (fun c => c == ' ')
  let act := r4.takeWhile (fun c => c != ';')
  let r5 := r4.dropWhile (fun c => c != ';')
  let r6 := r5.dropWhile (fun c => c == ' ')
  ⟨idp.1, pg.1, if act.isEmpty then none else some act, detailsMatch r6⟩

/-- The `Step` record.  In Python `quantities` is either the default empty
list or the raw matched string; `none` models the empty-list default. -/
structure Step where
  id : List Char
  quantities : Option (List Char)
  action : List Char
  details : Option (List Char)
deriving DecidableEq

def missingStepIdMsg (data : List Char) : List Char :=
  "missing step id: ".data ++ data

def missingStepActionMsg (data : List Char) : List Char :=
  "missing step action: ".data ++ data

/-- `Step.__init__`: the pattern always matches; id is checked first, the
quantities group is stored verbatim when truthy, then action is checked. -/
def Step.make (data : List Char) : Except CookErr Step :=
  let m := stepMatch data
  if truthy m.idg then
    if truthy m.action then
      .ok ⟨stripDots (m.idg.getD []),
           (if truthy m.quantities then m.quantities else none),
           m.action.getD [], m.details⟩
    else .error (.stepErr (missingStepActionMsg data))
  else .error (.stepErr (missingStepIdMsg data))

/-- Python `', '.join(s)` applied to a string: interleave comma-space between
the individual characters. -/
def joinCommaSpace (l : List Char) : List Char :=
  List.intercalate [',', ' '] (l.map (fun c => [c]))

/-- `Step.__str__`: quantities are joined with comma-space (over the stored
string, hence between its characters) and wrapped in parentheses. -/
def Step.str (s : Step) : List Char :=
  let quantities :=
    if truthy s.quantities then "(".data ++ joinCommaSpace (s.quantities.getD []) ++ ") ".data
    else []
  let details := if truthy s.details then "; ".data ++ s.details.getD [] else []
  s.id ++ ". ".data ++ quantities ++ s.action ++ details

/-- A decoded YAML mapping; `none` models an absent key. Recipe files use the
first six keys, the book manifest uses `title` and the last four. -/
structure YamlMap where
  id : Option (List Char) := none
  title : Option (List Char) := none
  ingredients : Option (List (List Char)) := none
  steps : Option (List (List Char)) := none
  sources : Option (List (List Char)) := none
  tags : Option (List (List Char)) := none
  descriptions : Option (List Char) := none
  authors : Option (List Char) := none
  revision : Option (List Char) := none
  renderer : Option (List Char) := none
deriving DecidableEq

/-- A Python list comprehension over a fallible constructor: the first raised
exception propagates immediately. -/
def mapE (f : α → Except CookErr β) : List α → Except CookErr (List β)
  | [] => .ok []
  | a :: l =>
    match f a with
    | .error e => .error e
    | .ok b =>
      match mapE f l with
      | .error e => .error e
      | .ok bs => .ok (b :: bs)

structure Recipe where
  id : List Char
  sources : List (List Char)
  title : List Char
  ingredients : List Ingredient
  steps : List Step
  img : List Char
  tags : List (List Char)
deriving DecidableEq

def recipeTitleMsg : List Char := "a recipe must have a title".data

def recipeIngredientsMsg : List Char := "a recipe must have one or more ingredients".data

def recipeStepsMsg : List Char := "a recipe must have one or more steps".data

/-- `Recipe.__init__` on a decoded mapping.  `fresh` stands for the uuid that
would be generated when the mapping supplies no `id`.  Subscripting a missing
`ingredients`/`steps` key raises a plain `KeyError`; the comprehension over
the lines propagates the first field error; the emptiness checks run after
each comprehension. -/
def Recipe.make (fresh : List Char) (data : YamlMap) : Except CookErr Recipe :=
  let rid := data.id.getD fresh
  if truthy data.title then
    match data.ingredients with
    | none => .error (.keyError "ingredients".data)
    | some ils =>
      match mapE Ingredient.make ils with
      | .error e => .error e
      | .ok igs =>
        if igs.isEmpty then .error (.recipeErr recipeIngredientsMsg)
        else
          match data.steps with
          | none => .error (.keyError "steps".data)
          | some sls =>
            match mapE Step.make sls with
            | .error e => .error e
            | .ok sps =>
              if sps.isEmpty then .error (.recipeErr recipeStepsMsg)
              else .ok ⟨rid, data.sources.getD [], data.title.getD [],
                        igs, sps, [], data.tags.getD []⟩
  else .error (.recipeErr recipeTitleMsg)

structure Book where
  title : List Char
  descriptions : List Char
  authors : List Char
  revision : List Char
  renderer : List Char
deriving DecidableEq

/-- `Book.__init__`: five required keys read by plain subscripting, raising
`KeyError` for the first absent key in source order. -/
def Book.make (data : YamlMap) : Except CookErr Book :=
  match data.title with
  | none => .error (.keyError "title".data)
  | some t =>
    match data.descriptions with
    | none => .error (.keyError "descriptions".data)
    | some d =>
      match data.authors with
      | none => .error (.keyError "authors".data)
      | some a =>
        match data.revision with
        | none => .error (.keyError "revision".data)
        | some rev =>
          match data.renderer with
          | none => .error (.keyError "renderer".data)
          | some ren => .ok ⟨t, d, a, rev, ren⟩

/-- What `yaml.safe_load` yields for one file: a decoding failure, an
empty/null document, or a mapping. -/
inductive FileContent where
  | decodeError (descr : List Char)
  | empty
  | doc (m : YamlMap)
deriving DecidableEq

/-- One file on disk: basename, full path, decoded content, the uuid a
constructed Recipe would receive, and the name of the first existing sibling
image (png/jpeg probe) if any. -/
structure FileEntry where
  name : List Char
  path : List Char
  content : FileContent
  fresh : List Char := []
  siblingImage : Option (List Char) := none
deriving DecidableEq

/-- A `SourceException`: offending file path, message, and the `__cause__`
installed by the raise-from. -/
structure SrcErr where
  filename : List Char
  message : List Char
  cause : CookErr
deriving DecidableEq

def unexpectedMsg : List Char := "unexpected exception while processing file".data

def bookYaml : List Char := "book.yaml".data

/-- The image-discovery assignment of `_process_file` on success. -/
def setImg (f : FileEntry) (r : Recipe) : Recipe :=
  { r with img := f.siblingImage.getD [] }

/-- `_process_file`: skip empty documents, append the constructed Recipe,
and translate any exception into a `SourceException` carrying the file path;
non-`CookbookException` causes get the distinct unexpected-exception tag. -/
def processFile (file : FileEntry) (recipes : List Recipe) :
    Except SrcErr (List Recipe) :=
  match file.content with
  | .decodeError d => .error ⟨file.path, unexpectedMsg, .pyError d⟩
  | .empty => .ok recipes
  | .doc m =>
    match Recipe.make file.fresh m with
    | .ok r => .ok (recipes ++ [setImg file r])
    | .error e =>
      if e.isCookbook then .error ⟨file.path, [], e⟩
      else .error ⟨file.path, unexpectedMsg, e⟩

/-- `_process_dir`: walk the files, always skipping the reserved manifest
name, and process every other file with the recipe extension. -/
def processDir (files : List FileEntry) (recipes : List Recipe) :
    Except SrcErr (List Recipe) :=
  match files with
  | [] => .ok recipes
  | f :: rest =>
    if f.name == bookYaml then processDir rest recipes
    else if ".yaml".data.isSuffixOf f.name then
      match processFile f recipes with
      | .error e => .error e
      | .ok rs => processDir rest rs
    else processDir rest recipes

/-- One input path: a directory (its recursively walked files, plus the
decoded content of a `book.yaml` directly inside it, if that file exists) or
a single file. -/
inductive InputPath where
  | dir (files : List FileEntry) (manifest : Option FileContent)
  | file (f : FileEntry)
deriving DecidableEq

def loadRecipesFrom (inputs : List InputPath) (recipes : List Recipe) :
    Except SrcErr (List Recipe) :=
  match inputs with
  | [] => .ok recipes
  | .dir files _ :: rest =>
    match processDir files recipes with
    | .error e => .error e
    | .ok rs => loadRecipesFrom rest rs
  | .file f :: rest =>
    if f.name == bookYaml then loadRecipesFrom rest recipes
    else
      match processFile f recipes with
      | .error e => .error e
      | .ok rs => loadRecipesFrom rest rs

/-- `load_recipes`: fold the inputs over an initially empty collection. -/
def load_recipes (inputs : List InputPath) : Except SrcErr (List Recipe) :=
  loadRecipesFrom inputs []

/-- Constructing the Book from a manifest file's decoded content; `load_book`
has no exception handler, so decode failures and a null document surface as
raw Python errors and a missing key as a raw `KeyError`. -/
def bookFromContent (c : FileContent) : Except CookErr Book :=
  match c with
  | .decodeError d => .error (.pyError d)
  | .empty => .error (.pyError "NoneType object is not subscriptable".data)
  | .doc m => Book.make m

/-- `load_book`: first manifest match across the inputs in order wins. -/
def load_book (inputs : List InputPath) : Except CookErr (Option Book) :=
  match inputs with
  | [] => .ok none
  | .dir _ manifest :: rest =>
    match manifest with
    | some c =>
      match bookFromContent c with
      | .error e => .error e
      | .ok b => .ok (some b)
    | none => load_book rest
  | .file f :: rest =>
    if f.name == bookYaml then
      match bookFromContent f.content with
      | .error e => .error e
      | .ok b => .ok (some b)
    else load_book rest

/-- Whether `_process_file` raises on this file: a decode failure, or a
document whose Recipe construction fails. -/
def fileFails (f : FileEntry) : Bool :=
  match f.content with
  | .decodeError _ => true
  | .empty => false
  | .doc m =>
    match Recipe.make f.fresh m with
    | .ok _ => false
    | .error _ => true

/-- The original exception raised inside `_process_file`, if any. -/
def origFailure (f : FileEntry) : Option CookErr :=
  match f.content with
  | .decodeError d => some (.pyError d)
  | .empty => none
  | .doc m =>
    match Recipe.make f.fresh m with
    | .ok _ => none
    | .error e => some e

/-- The `SourceException` that `_process_file` raises on a failing file. -/
def srcErrOf (f : FileEntry) : SrcErr :=
  match origFailure f with
  | some e => ⟨f.path, if e.isCookbook then [] else unexpectedMsg, e⟩
  | none => ⟨f.path, [], .pyError []⟩

/-- The recipes a non-failing file contributes (none for an empty document,
one for a constructed Recipe). -/
def emit (f : FileEntry) : List Recipe :=
  match f.content with
  | .decodeError _ => []
  | .empty => []
  | .doc m =>
    match Recipe.make f.fresh m with
    | .ok r => [setImg f r]
    | .error _ => []

/-- Sequential processing of a list of candidate files, as performed by the
bodies of `_process_dir` and `load_recipes` after name filtering. -/
def processSeq (files : List FileEntry) (recipes : List Recipe) :
    Except SrcErr (List Recipe) :=
  match files with
  | [] => .ok recipes
  | f :: rest =>
    match processFile f recipes with
    | .error e => .error e
    | .ok rs => processSeq rest rs

/-- The files of a walked directory that `_process_dir` actually processes:
not named `book.yaml`, and carrying the `.yaml` extension. -/
def dirCandidates (files : List FileEntry) : List FileEntry :=
  files.filter (fun f => !(f.name == bookYaml) && ".yaml".data.isSuffixOf f.name)

/-- Every file the whole `load_recipes` pass processes, in processing order.
Directory inputs are filtered by name and extension; direct file inputs are
only skipped when named `book.yaml`. -/
def candidates : List InputPath → List FileEntry
  | [] => []
  | .dir files _ :: rest => dirCandidates files ++ candidates rest
  | .file f :: rest => (if f.name == bookYaml then [] else [f]) ++ candidates rest

/-- The manifest contents `load_book` would consider, in input order. -/
def manifests : List InputPath → List FileContent
  | [] => []
  | .dir _ m :: rest => m.toList ++ manifests rest
  | .file f :: rest => (if f.name == bookYaml then [f.content] else []) ++ manifests rest

/-- A mapping whose two ingredient lines reuse the same id label `A`. -/
def dupIngredientData : YamlMap :=
  { title := some "Stock".data,
    ingredients := some ["A. (1 cup) water".data, "A. (2) salt".data],
    steps := some ["1. mix".data] }

/-- The end-to-end sample mapping of the spec: one ingredient, one step. -/
def teaData : YamlMap :=
  { title := some "Tea".data,
    ingredients := some ["A. (1 cup) water".data],
    steps := some ["1. boil".data] }

/-- The Recipe that `teaData` constructs under an empty fresh id. -/
def teaRecipe : Recipe :=
  ⟨[], [], "Tea".data, [⟨"A".data, "1 cup".data, "water".data, none⟩],
    [⟨"1".data, none, "boil".data, none⟩], [], []⟩

/-- A mapping with a title and ingredients but no `steps` key. -/
def noStepsData : YamlMap :=
  { title := some "T".data, ingredients := some ["A. (1) x".data] }

/-- A mapping with a title but an empty source ingredient list. -/
def noIngredientsData : YamlMap :=
  { title := some "T".data, ingredients := some [], steps := some ["1. mix".data] }

/-- A recipe file whose document fails Recipe construction. -/
def badFile : FileEntry :=
  ⟨"bad.yaml".data, "/in/bad.yaml".data, .doc noIngredientsData, [], none⟩

/-- A single-file input list containing only the failing file. -/
def badInputs : List InputPath := [.file badFile]

/-- A well-formed recipe file. -/
def teaFile : FileEntry :=
  ⟨"tea.yaml".data, "/in/tea.yaml".data, .doc teaData, [], none⟩

/-- A manifest mapping carrying the five required Book keys. -/
def bookData : YamlMap :=
  { title := some "B".data, descriptions := some "cookbook".data,
    authors := some "me".data, revision := some "1".data,
    renderer := some "sphinx".data }

/-- The Book that `bookData` constructs. -/
def sampleBook : Book :=
  ⟨"B".data, "cookbook".data, "me".data, "1".data, "sphinx".data⟩

/-- The walked manifest file inside the sample directory. -/
def manifestFile : FileEntry :=
  ⟨"book.yaml".data, "/in/book.yaml".data, .doc bookData, [], none⟩

/-- A directory input holding one recipe file plus the manifest. -/
def sampleDirInputs : List InputPath :=
  [.dir [teaFile, manifestFile] (some (.doc bookData))]

/-! ### List and character facts used to evaluate the matching functions -/

theorem takeWhile_append_all (p : Char → Bool) (xs ys : List Char)
    (h : ∀ x ∈ xs, p x = true) :
    (xs ++ ys).takeWhile p = xs ++ ys.takeWhile p := by
  induction xs with
  | nil => simp
  | cons a t ih =>
    have ha : p a = true := h a (List.mem_cons_self a t)
    simp [List.takeWhile_cons, ha, ih (fun x hx => h x (List.mem_cons_of_mem a hx))]

theorem dropWhile_append_all (p : Char → Bool) (xs ys : List Char)
    (h : ∀ x ∈ xs, p x = true) :
    (xs ++ ys).dropWhile p = ys.dropWhile p := by
  induction xs with
  | nil => simp
  | cons a t ih =>
    have ha : p a = true := h a (List.mem_cons_self a t)
    simp [List.dropWhile_cons, ha, ih (fun x hx => h x (List.mem_cons_of_mem a hx))]

theorem takeWhile_all (p : Char → Bool) (xs : List Char) (h : ∀ x ∈ xs, p x = true) :
    xs.takeWhile p = xs := by
  simpa using takeWhile_append_all p xs [] h

theorem dropWhile_all (p : Char → Bool) (xs : List Char) (h : ∀ x ∈ xs, p x = true) :
    xs.dropWhile p = [] := by
  simpa using dropWhile_append_all p xs [] h

theorem takeWhile_stop (p : Char → Bool) (xs ys : List Char) (c : Char)
    (h : ∀ x ∈ xs, p x = true) (hc : p c = false) :
    (xs ++ c :: ys).takeWhile p = xs := by
  rw [takeWhile_append_all p xs _ h, List.takeWhile_cons, hc]
  simp

theorem dropWhile_stop (p : Char → Bool) (xs ys : List Char) (c : Char)
    (h : ∀ x ∈ xs, p x = true) (hc : p c = false) :
    (xs ++ c :: ys).dropWhile p = c :: ys := by
  rw [dropWhile_append_all p xs _ h, List.dropWhile_cons, hc]
  simp

theorem upper_ne_dot {c : Char} (h : c.isUpper = true) : (c == '.') = false := by
  cases hb : c == '.' with
  | false => rfl
  | true =>
    have hc : c = '.' := eq_of_beq hb
    subst hc
    exact absurd h (by decide)

theorem stripDots_upper (ID : List Char) (hne : ID ≠ [])
    (hu : ∀ c ∈ ID, c.isUpper = true) : stripDots (ID ++ ['.']) = ID := by
  obtain ⟨a, t, rfl⟩ := List.exists_cons_of_ne_nil hne
  have ha : (a == '.') = false := upper_ne_dot (hu a (List.mem_cons_self a t))
  have h1 : ((a :: t) ++ ['.']).dropWhile (fun c => c == '.') = (a :: t) ++ ['.'] := by
    simp [List.dropWhile_cons, ha]
  rw [stripDots, h1]
  have h2 : ((a :: t) ++ ['.']).reverse = '.' :: (a :: t).reverse := by
    simp
  rw [h2, List.dropWhile_cons]
  have h3 : (('.' : Char) == '.') = true := by decide
  rw [h3]
  simp only [if_true]
  rcases List.eq_nil_or_concat t with rfl | ⟨t', b, rfl⟩
  · simp [List.dropWhile_cons, ha]
  · have hb : (b == '.') = false :=
      upper_ne_dot (hu b (by simp))
    simp [List.dropWhile_cons, hb, ha, dropWhile_all]

theorem parenGroup_exact (QTY rest : List Char) (h0 : QTY ≠ [])
    (h : ∀ x ∈ QTY, ¬ x = ')') :
    parenGroup ('(' :: (QTY ++ ')' :: rest)) = (some QTY, rest) := by
  have hb : ∀ x ∈ QTY, (x != ')') = true := fun x hx => bne_iff_ne.mpr (h x hx)
  have hq : (QTY ++ ')' :: rest).takeWhile (fun c => c != ')') = QTY :=
    takeWhile_stop _ _ _ _ hb (by decide)
  have hr : (QTY ++ ')' :: rest).dropWhile (fun c => c != ')') = ')' :: rest :=
    dropWhile_stop _ _ _ _ hb (by decide)
  obtain ⟨a, t, rfl⟩ := List.exists_cons_of_ne_nil h0
  simp only [parenGroup, hq, hr]

theorem dropWhile_space_sp (l : List Char) :
    List.dropWhile (fun c => c == ' ') (' ' :: l) = List.dropWhile (fun c => c == ' ') l := by
  simp [List.dropWhile_cons]

theorem dropWhile_space_stop (c : Char) (l : List Char) (h : (c == ' ') = false) :
    List.dropWhile (fun c => c == ' ') (c :: l) = c :: l := by
  simp [List.dropWhile_cons, h]

/-- Evaluating the ingredient regex on a fully structured line
`ID. (QTY) NAME` followed by `tail` (empty, or semicolon-led). -/
theorem ingMatch_structured (ID QTY NAME tail : List Char)
    (hID : ID ≠ []) (hIDu : ∀ c ∈ ID, c.isUpper = true)
    (hQ : QTY ≠ []) (hQc : ∀ x ∈ QTY, ¬ x = ')')
    (hN : NAME ≠ []) (hNc : ∀ x ∈ NAME, ¬ x = ';') (hNh : NAME.head? ≠ some ' ')
    (ht : tail.head? = some ';' ∨ tail = []) :
    ingMatch (ID ++ '.' :: ' ' :: '(' :: (QTY ++ ')' :: ' ' :: (NAME ++ tail)))
      = some ⟨ID ++ ['.'], some QTY, some NAME, detailsMatch tail⟩ := by
  obtain ⟨i0, it, rfl⟩ := List.exists_cons_of_ne_nil hID
  obtain ⟨n0, nt, rfl⟩ := List.exists_cons_of_ne_nil hN
  have hn0 : (n0 == ' ') = false := by
    cases hb : n0 == ' ' with
    | false => rfl
    | true => exact absurd (by simp [eq_of_beq hb]) hNh
  have hnb : ∀ x ∈ n0 :: nt, (x != ';') = true := fun x hx => bne_iff_ne.mpr (hNc x hx)
  have h1 : List.takeWhile Char.isUpper
      (i0 :: (it ++ '.' :: ' ' :: '(' :: (QTY ++ ')' :: ' ' :: n0 :: (nt ++ tail))))
      = i0 :: it := by
    simpa only [List.cons_append] using
      takeWhile_stop Char.isUpper (i0 :: it)
        (' ' :: '(' :: (QTY ++ ')' :: ' ' :: ((n0 :: nt) ++ tail))) '.' hIDu (by decide)
  have h2 : List.dropWhile Char.isUpper
      (i0 :: (it ++ '.' :: ' ' :: '(' :: (QTY ++ ')' :: ' ' :: n0 :: (nt ++ tail))))
      = '.' :: ' ' :: '(' :: (QTY ++ ')' :: ' ' :: n0 :: (nt ++ tail)) := by
    simpa only [List.cons_append] using
      dropWhile_stop Char.isUpper (i0 :: it)
        (' ' :: '(' :: (QTY ++ ')' :: ' ' :: ((n0 :: nt) ++ tail))) '.' hIDu (by decide)
  have hpg : parenGroup ('(' :: (QTY ++ ')' :: ' ' :: n0 :: (nt ++ tail)))
      = (some QTY, ' ' :: n0 :: (nt ++ tail)) := by
    simpa only [List.cons_append] using
      parenGroup_exact QTY (' ' :: ((n0 :: nt) ++ tail)) hQ hQc
  have hpg1 : (parenGroup ('(' :: (QTY ++ ')' :: ' ' :: n0 :: (nt ++ tail)))).1 = some QTY := by
    rw [hpg]
  have hpg2 : (parenGroup ('(' :: (QTY ++ ')' :: ' ' :: n0 :: (nt ++ tail)))).2
      = ' ' :: n0 :: (nt ++ tail) := by
    rw [hpg]
  have htk : List.takeWhile (fun c => c != ';') (n0 :: (nt ++ tail)) = n0 :: nt := by
    rcases ht with hsemi | rfl
    · obtain ⟨t0, tt, rfl⟩ : ∃ t0 tt, tail = t0 :: tt := by
        cases tail with
        | nil => cases hsemi
        | cons a b => exact ⟨a, b, rfl⟩
      have ht0 : t0 = ';' := by simpa using hsemi
      subst ht0
      simpa only [List.cons_append] using
        takeWhile_stop (fun c => c != ';') (n0 :: nt) tt ';' hnb (by decide)
    · simpa only [List.append_nil] using takeWhile_all (fun c => c != ';') (n0 :: nt) hnb
  have hdr : List.dropWhile (fun c => c != ';') (n0 :: (nt ++ tail)) = tail := by
    rcases ht with hsemi | rfl
    · obtain ⟨t0, tt, rfl⟩ : ∃ t0 tt, tail = t0 :: tt := by
        cases tail with
        | nil => cases hsemi
        | cons a b => exact ⟨a, b, rfl⟩
      have ht0 : t0 = ';' := by simpa using hsemi
      subst ht0
      simpa only [List.cons_append] using
        dropWhile_stop (fun c => c != ';') (n0 :: nt) tt ';' hnb (by decide)
    · simpa only [List.append_nil] using dropWhile_all (fun c => c != ';') (n0 :: nt) hnb
  have hr6 : List.dropWhile (fun c => c == ' ') tail = tail := by
    rcases ht with hsemi | rfl
    · obtain ⟨t0, tt, rfl⟩ : ∃ t0 tt, tail = t0 :: tt := by
        cases tail with
        | nil => cases hsemi
        | cons a b => exact ⟨a, b, rfl⟩
      have ht0 : t0 = ';' := by simpa using hsemi
      subst ht0
      exact dropWhile_space_stop ';' tt (by decide)
    · rfl
  simp only [List.cons_append, ingMatch, h1, h2, dropWhile_space_sp,
    dropWhile_space_stop '(' _ (by decide), hpg1, hpg2, dropWhile_space_stop n0 _ hn0,
    htk, hdr, hr6, List.isEmpty_cons]
  simp

/-- Constructing an `Ingredient` from a fully structured line: all three
required groups are extracted and the trailing dot is stripped from the id. -/
theorem make_structured (ID QTY NAME tail : List Char)
    (hID : ID ≠ []) (hIDu : ∀ c ∈ ID, c.isUpper = true)
    (hQ : QTY ≠ []) (hQc : ∀ x ∈ QTY, ¬ x = ')')
    (hN : NAME ≠ []) (hNc : ∀ x ∈ NAME, ¬ x = ';') (hNh : NAME.head? ≠ some ' ')
    (ht : tail.head? = some ';' ∨ tail = []) :
    Ingredient.make (ID ++ '.' :: ' ' :: '(' :: (QTY ++ ')' :: ' ' :: (NAME ++ tail)))
      = .ok ⟨ID, QTY, NAME, detailsMatch tail⟩ := by
  have hm := ingMatch_structured ID QTY NAME tail hID hIDu hQ hQc hN hNc hNh ht
  have hsd : stripDots (ID ++ ['.']) = ID := stripDots_upper ID hID hIDu
  obtain ⟨i0, it, rfl⟩ := List.exists_cons_of_ne_nil hID
  obtain ⟨q0, qt, rfl⟩ := List.exists_cons_of_ne_nil hQ
  obtain ⟨n0, nt, rfl⟩ := List.exists_cons_of_ne_nil hN
  have hsd' : stripDots (i0 :: (it ++ ['.'])) = i0 :: it := by
    simpa only [List.cons_append] using hsd
  have hm' : ingMatch (i0 :: (it ++ '.' :: ' ' :: '(' :: q0 :: (qt ++ ')' :: ' ' :: n0 ::
      (nt ++ tail))))
      = some ⟨i0 :: (it ++ ['.']), some (q0 :: qt), some (n0 :: nt), detailsMatch tail⟩ := by
    simpa only [List.cons_append] using hm
  simp only [Ingredient.make, hm', truthy, List.cons_append, List.isEmpty_cons,
    Bool.not_false, Option.getD_some, hsd']
  simp

/-- Serializing an `Ingredient` whose details are a non-empty string. -/
theorem str_with_details (ID QTY NAME DETAILS : List Char) (hD : DETAILS ≠ []) :
    Ingredient.str ⟨ID, QTY, NAME, some DETAILS⟩
      = ID ++ ". (".data ++ QTY ++ ") ".data ++ NAME ++ "; ".data ++ DETAILS := by
  obtain ⟨d0, dt, rfl⟩ := List.exists_cons_of_ne_nil hD
  simp [Ingredient.str, truthy, List.append_assoc]

/-- Serializing an `Ingredient` whose details are `None` or empty. -/
theorem str_without_details (ID QTY NAME : List Char) (d : Option (List Char))
    (hd : truthy d = false) :
    Ingredient.str ⟨ID, QTY, NAME, d⟩ = ID ++ ". (".data ++ QTY ++ ") ".data ++ NAME := by
  simp [Ingredient.str, hd]

/-! ### Inversion lemmas for the constructors -/

/-- `mapE` succeeds exactly when the constructor succeeds pointwise, in
order. -/
theorem mapE_ok_iff {α β : Type} (f : α → Except CookErr β) (l : List α) (bs : List β) :
    mapE f l = .ok bs ↔ List.Forall₂ (fun a b => f a = .ok b) l bs := by
  induction l generalizing bs with
  | nil =>
    constructor
    · intro h
      have hb : bs = [] := by simpa [mapE] using h
      subst hb
      exact List.Forall₂.nil
    · intro h
      cases h
      rfl
  | cons a t ih =>
    constructor
    · intro h
      unfold mapE at h
      cases hfa : f a with
      | error e => rw [hfa] at h; cases h
      | ok b =>
        rw [hfa] at h
        cases hmt : mapE f t with
        | error e => rw [hmt] at h; cases h
        | ok bs' =>
          rw [hmt] at h
          have hb : bs = b :: bs' := (Except.ok.inj h).symm
          subst hb
          exact List.Forall₂.cons hfa ((ih bs').mp hmt)
    · intro h
      cases h with
      | cons hab htail =>
        unfold mapE
        rw [hab, (ih _).mpr htail]

/-- The first constructor failure in a comprehension propagates. -/
theorem mapE_error_of_head {α β : Type} (f : α → Except CookErr β) (a : α) (t : List α)
    (e : CookErr) (h : f a = .error e) : mapE f (a :: t) = .error e := by
  unfold mapE
  rw [h]

theorem forall₂_mem_right {α β : Type} {R : α → β → Prop} {l₁ : List α} {l₂ : List β}
    (h : List.Forall₂ R l₁ l₂) : ∀ b ∈ l₂, ∃ a, R a b := by
  induction h with
  | nil => intro b hb; cases hb
  | cons hR htail ih =>
    intro b hb
    rcases List.mem_cons.mp hb with rfl | hb'
    · exact ⟨_, hR⟩
    · exact ih b hb'

/-- Inversion of a successful ingredient match: the input starts with a
non-empty uppercase run followed by a dot. -/
theorem ingMatch_some_inv (s : List Char) (m : IngFields) (h : ingMatch s = some m) :
    ∃ a t r1, s.takeWhile Char.isUpper = a :: t ∧ s.dropWhile Char.isUpper = '.' :: r1 ∧
      m.idg = (a :: t) ++ ['.'] := by
  unfold ingMatch at h
  dsimp only at h
  split at h
  next a t r1 heq1 heq2 =>
    refine ⟨a, t, r1, heq1, heq2, ?_⟩
    have hm := Option.some.inj h
    rw [← hm]
    simp [heq1]
  next => exact absurd h (by simp)

/-- A successful ingredient match always carries a non-empty, all-uppercase
id run followed by the dot. -/
theorem ingMatch_idg_eq (s : List Char) (m : IngFields) (h : ingMatch s = some m) :
    ∃ run, run ≠ [] ∧ (∀ c ∈ run, c.isUpper = true) ∧ m.idg = run ++ ['.'] := by
  obtain ⟨a, t, r1, heq1, heq2, hidg⟩ := ingMatch_some_inv s m h
  refine ⟨a :: t, by simp, ?_, hidg⟩
  intro c hc
  have hmem : c ∈ s.takeWhile Char.isUpper := by rw [heq1]; exact hc
  exact List.mem_takeWhile_imp hmem

theorem ingMatch_idg_ne (s : List Char) (m : IngFields) (h : ingMatch s = some m) :
    m.idg ≠ [] := by
  obtain ⟨run, _, _, hr⟩ := ingMatch_idg_eq s m h
  rw [hr]
  simp

/-- Any constructed `Ingredient` has a non-empty all-uppercase id. -/
theorem ingredient_ok_id_shape (s : List Char) (i : Ingredient)
    (h : Ingredient.make s = .ok i) :
    i.id ≠ [] ∧ ∀ c ∈ i.id, c.isUpper = true := by
  unfold Ingredient.make at h
  split at h
  next => exact absurd h (by simp)
  next m hm =>
    obtain ⟨run, hne, hup, hidg⟩ := ingMatch_idg_eq s m hm
    split at h
    next => exact absurd h (by simp)
    next =>
      split at h
      case isFalse => exact absurd h (by simp)
      case isTrue =>
        split at h
        case isFalse => exact absurd h (by simp)
        case isTrue =>
          have hi := Except.ok.inj h
          rw [← hi]
          rw [hidg] at *
          have hid : stripDots (run ++ ['.']) = run := stripDots_upper run hne hup
          simpa [hid] using ⟨hne, hup⟩

/-- Inversion of a successful Recipe construction: the ingredient and step
lists come from the comprehensions over the mapping's lists. -/
theorem recipe_ok_inversion (fresh : List Char) (d : YamlMap) (r : Recipe)
    (h : Recipe.make fresh d = .ok r) :
    ∃ ils sls, d.ingredients = some ils ∧ d.steps = some sls ∧
      mapE Ingredient.make ils = .ok r.ingredients ∧
      mapE Step.make sls = .ok r.steps := by
  unfold Recipe.make at h
  split at h
  case isTrue =>
    split at h
    next => exact absurd h (by simp)
    next ils hils =>
      split at h
      next => exact absurd h (by simp)
      next igs higs =>
        split at h
        case isTrue => exact absurd h (by simp)
        case isFalse =>
          split at h
          next => exact absurd h (by simp)
          next sls hsls =>
            split at h
            next => exact absurd h (by simp)
            next sps hsps =>
              split at h
              case isTrue => exact absurd h (by simp)
              case isFalse =>
                have hr := Except.ok.inj h
                refine ⟨ils, sls, hils, hsls, ?_, ?_⟩
                · rw [← hr, higs]
                · rw [← hr, hsps]
  case isFalse => exact absurd h (by simp)

/-! ### Loader lemmas -/

/-- `_process_file` either raises the source error determined by the file, or
appends exactly the file's emitted recipes. -/
theorem processFile_eq (f : FileEntry) (rs : List Recipe) :
    processFile f rs = if fileFails f then .error (srcErrOf f) else .ok (rs ++ emit f) := by
  unfold processFile fileFails srcErrOf origFailure emit
  cases hc : f.content with
  | decodeError d => simp [CookErr.isCookbook]
  | empty => simp
  | doc m =>
    cases hr : Recipe.make f.fresh m with
    | ok r => simp [hr]
    | error e => cases he : e.isCookbook <;> simp [hr, he]

theorem processSeq_append (l₁ l₂ : List FileEntry) (rs : List Recipe) :
    processSeq (l₁ ++ l₂) rs =
      match processSeq l₁ rs with
      | .error e => .error e
      | .ok rs' => processSeq l₂ rs' := by
  induction l₁ generalizing rs with
  | nil => simp [processSeq]
  | cons f t ih =>
    simp only [List.cons_append, processSeq]
    cases processFile f rs with
    | error e => rfl
    | ok rs' => exact ih rs'

theorem processDir_eq (files : List FileEntry) (rs : List Recipe) :
    processDir files rs = processSeq (dirCandidates files) rs := by
  induction files generalizing rs with
  | nil => rfl
  | cons f t ih =>
    unfold processDir
    cases hb : f.name == bookYaml with
    | true => simp [dirCandidates, List.filter_cons, hb, ih]
    | false =>
      cases hy : ".yaml".data.isSuffixOf f.name with
      | true =>
        simp only [dirCandidates, List.filter_cons, hb, hy, Bool.not_false, Bool.true_and,
          if_true, Bool.false_eq_true, if_false]
        simp only [processSeq]
        cases processFile f rs with
        | error e => rfl
        | ok rs' => exact ih rs'
      | false => simp [dirCandidates, List.filter_cons, hb, hy, ih]

theorem load_recipes_eq (inputs : List InputPath) :
    load_recipes inputs = processSeq (candidates inputs) [] := by
  suffices h : ∀ inputs rs, loadRecipesFrom inputs rs = processSeq (candidates inputs) rs by
    exact h inputs []
  intro inputs
  induction inputs with
  | nil => intro rs; rfl
  | cons p rest ih =>
    intro rs
    cases p with
    | dir files m =>
      simp only [loadRecipesFrom, candidates, processDir_eq, processSeq_append]
      cases processSeq (dirCandidates files) rs with
      | error e => rfl
      | ok rs' => exact ih rs'
    | file f =>
      cases hb : f.name == bookYaml with
      | true => simp [loadRecipesFrom, candidates, hb, ih]
      | false =>
        simp only [loadRecipesFrom, candidates, hb, Bool.false_eq_true, if_false,
          List.nil_append, List.singleton_append, processSeq]
        cases processFile f rs with
        | error e => rfl
        | ok rs' => exact ih rs'

/-- Sequential processing fails exactly on the first failing file, with that
file's source error. -/
theorem processSeq_error_iff (files : List FileEntry) (rs : List Recipe) (e : SrcErr) :
    processSeq files rs = .error e ↔
      ∃ l₁ f l₂, files = l₁ ++ f :: l₂ ∧ (∀ g ∈ l₁, fileFails g = false) ∧
        fileFails f = true ∧ e = srcErrOf f := by
  induction files generalizing rs with
  | nil =>
    constructor
    · intro h; cases h
    · rintro ⟨l₁, f, l₂, heq, -, -, -⟩
      exact absurd heq.symm (by simp)
  | cons f t ih =>
    rw [processSeq, processFile_eq]
    cases hf : fileFails f with
    | true =>
      simp only [if_true]
      constructor
      · intro h
        have he : e = srcErrOf f := (Except.error.inj h).symm
        exact ⟨[], f, t, rfl, by simp, hf, he⟩
      · rintro ⟨l₁, g, l₂, heq, hall, hg, he⟩
        cases l₁ with
        | nil =>
          have hfg : f = g := by simpa using congrArg (fun l => l.head?) heq
          rw [he, ← hfg]
        | cons a l₁' =>
          have ha : a = f := by simpa using (congrArg (fun l => l.head?) heq).symm
          subst ha
          exact absurd hf (by simp [hall a (by simp)])
    | false =>
      simp only [Bool.false_eq_true, if_false]
      rw [ih]
      constructor
      · rintro ⟨l₁, g, l₂, heq, hall, hg, he⟩
        refine ⟨f :: l₁, g, l₂, by rw [List.cons_append, heq], ?_, hg, he⟩
        intro x hx
        rcases List.mem_cons.mp hx with rfl | hx'
        · exact hf
        · exact hall x hx'
      · rintro ⟨l₁, g, l₂, heq, hall, hg, he⟩
        cases l₁ with
        | nil =>
          have hfg : f = g := by simpa using congrArg (fun l => l.head?) heq
          rw [hfg] at hf
          exact absurd hg (by simp [hf])
        | cons a l₁' =>
          have ht : t = l₁' ++ g :: l₂ := by simpa using congrArg List.tail heq
          exact ⟨l₁', g, l₂, ht, fun x hx => hall x (List.mem_cons_of_mem a hx), hg, he⟩

/-- When every candidate is a well-formed recipe document, processing
succeeds and contributes exactly one recipe per file. -/
theorem processSeq_wellformed (files : List FileEntry) (rs : List Recipe)
    (h : ∀ f ∈ files, ∃ m r, f.content = .doc m ∧ Recipe.make f.fresh m = .ok r) :
    ∃ out, processSeq files rs = .ok (rs ++ out) ∧ out.length = files.length := by
  induction files generalizing rs with
  | nil => exact ⟨[], by simp [processSeq], rfl⟩
  | cons f t ih =>
    obtain ⟨m, r, hc, hr⟩ := h f (List.mem_cons_self f t)
    have hpf : processFile f rs = .ok (rs ++ [setImg f r]) := by
      simp [processFile, hc, hr]
    obtain ⟨out, hout, hlen⟩ := ih (rs ++ [setImg f r])
      (fun g hg => h g (List.mem_cons_of_mem f hg))
    refine ⟨setImg f r :: out, ?_, by simp [hlen]⟩
    simp [processSeq, hpf, hout]

/-- `load_book` inspects only the first manifest found across the inputs. -/
theorem load_book_eq (inputs : List InputPath) :
    load_book inputs =
      match (manifests inputs).head? with
      | none => .ok none
      | some c =>
        match bookFromContent c with
        | .error e => .error e
        | .ok b => .ok (some b) := by
  induction inputs with
  | nil => rfl
  | cons p rest ih =>
    cases p with
    | dir files m =>
      cases m with
      | none => simpa [load_book, manifests] using ih
      | some c => simp [load_book, manifests]
    | file f =>
      cases hb : f.name == bookYaml with
      | true => simp [load_book, manifests, hb]
      | false => simpa [load_book, manifests, hb] using ih

/-- The reserved manifest name never survives candidate collection. -/
theorem candidates_no_manifest (inputs : List InputPath) :
    ∀ f ∈ candidates inputs, ¬ f.name = bookYaml := by
  induction inputs with
  | nil => intro f hf; cases hf
  | cons p rest ih =>
    cases p with
    | dir files m =>
      intro f hf
      rcases List.mem_append.mp hf with hf' | hf'
      · have := List.of_mem_filter hf'
        intro hname
        simp [hname] at this
      · exact ih f hf'
    | file g =>
      intro f hf
      cases hb : g.name == bookYaml with
      | true =>
        rw [candidates, hb] at hf
        exact ih f (by simpa using hf)
      | false =>
        rw [candidates, hb] at hf
        simp only [Bool.false_eq_true, if_false, List.singleton_append] at hf
        rcases List.mem_cons.mp hf with rfl | hf'
        · intro hname
          rw [hname] at hb
          simp at hb
        · exact ih f hf'

/-- A failing file determines its original cause, and the raised
`SourceException` carries the file path and that cause. -/
theorem srcErrOf_shape (f : FileEntry) (h : fileFails f = true) :
    ∃ c, origFailure f = some c ∧ (srcErrOf f).filename = f.path ∧ (srcErrOf f).cause = c := by
  have hsome : ∃ c, origFailure f = some c := by
    unfold fileFails at h
    cases hc : f.content with
    | decodeError d => exact ⟨.pyError d, by simp [origFailure, hc]⟩
    | empty => rw [hc] at h; simp at h
    | doc m =>
      rw [hc] at h
      cases hr : Recipe.make f.fresh m with
      | ok r => simp [hr] at h
      | error e => exact ⟨e, by simp [origFailure, hc, hr]⟩
  obtain ⟨c, hcs⟩ := hsome
  exact ⟨c, hcs, by simp [srcErrOf, hcs], by simp [srcErrOf, hcs]⟩

/-! ### Claim theorems -/

/-- C1: for every valid ingredient line `ID. (QTY) NAME; DETAILS` (ID a
non-empty run of uppercase letters, QTY non-empty without a closing paren,
NAME non-empty without a semicolon, single separating spaces so no field
starts with a space, DETAILS non-empty on one line), constructing an
Ingredient and serializing it reproduces the line exactly; the same line with
the details tail omitted round-trips to itself without a trailing
semicolon. -/
theorem ingredient_line_roundtrip (ID QTY NAME DETAILS : List Char)
    (hID : ID ≠ []) (hIDu : ∀ c ∈ ID, c.isUpper = true)
    (hQ : QTY ≠ []) (hQc : ∀ x ∈ QTY, ¬ x = ')')
    (hN : NAME ≠ []) (hNc : ∀ x ∈ NAME, ¬ x = ';') (hNh : NAME.head? ≠ some ' ')
    (hD : DETAILS ≠ []) (hDc : ∀ x ∈ DETAILS, ¬ x = '\n') (hDh : DETAILS.head? ≠ some ' ') :
    (Ingredient.make (ID ++ ". (".data ++ QTY ++ ") ".data ++ NAME ++ "; ".data ++ DETAILS)
        = .ok ⟨ID, QTY, NAME, some DETAILS⟩ ∧
      Ingredient.str ⟨ID, QTY, NAME, some DETAILS⟩
        = ID ++ ". (".data ++ QTY ++ ") ".data ++ NAME ++ "; ".data ++ DETAILS) ∧
    (Ingredient.make (ID ++ ". (".data ++ QTY ++ ") ".data ++ NAME)
        = .ok ⟨ID, QTY, NAME, none⟩ ∧
      Ingredient.str ⟨ID, QTY, NAME, none⟩
        = ID ++ ". (".data ++ QTY ++ ") ".data ++ NAME) := by
  have hdm : detailsMatch (';' :: ' ' :: DETAILS) = some DETAILS := by
    obtain ⟨d0, dt, rfl⟩ := List.exists_cons_of_ne_nil hD
    have hd0 : (d0 == ' ') = false := by
      cases hb : d0 == ' ' with
      | false => rfl
      | true => exact absurd (by simp [eq_of_beq hb]) hDh
    have hdb : ∀ x ∈ d0 :: dt, (x != '\n') = true := fun x hx => bne_iff_ne.mpr (hDc x hx)
    simp [detailsMatch, dropWhile_space_sp, dropWhile_space_stop d0 _ hd0,
      takeWhile_all _ _ hdb]
  have hline1 : ID ++ ". (".data ++ QTY ++ ") ".data ++ NAME ++ "; ".data ++ DETAILS
      = ID ++ '.' :: ' ' :: '(' :: (QTY ++ ')' :: ' ' :: (NAME ++ (';' :: ' ' :: DETAILS))) := by
    show ID ++ ['.', ' ', '('] ++ QTY ++ [')', ' '] ++ NAME ++ [';', ' '] ++ DETAILS = _
    simp [List.append_assoc]
  have hline2 : ID ++ ". (".data ++ QTY ++ ") ".data ++ NAME
      = ID ++ '.' :: ' ' :: '(' :: (QTY ++ ')' :: ' ' :: (NAME ++ ([] : List Char))) := by
    show ID ++ ['.', ' ', '('] ++ QTY ++ [')', ' '] ++ NAME = _
    simp [List.append_assoc]
  refine ⟨⟨?_, ?_⟩, ⟨?_, ?_⟩⟩
  · rw [hline1, make_structured ID QTY NAME (';' :: ' ' :: DETAILS)
      hID hIDu hQ hQc hN hNc hNh (Or.inl rfl), hdm]
  · rw [str_with_details ID QTY NAME DETAILS hD]
  · rw [hline2, make_structured ID QTY NAME []
      hID hIDu hQ hQc hN hNc hNh (Or.inr rfl)]
    rfl
  · exact str_without_details ID QTY NAME none rfl

theorem ingredient_line_roundtrip_witness :
    Ingredient.make "A. (1 cup) water; chilled".data
        = .ok ⟨"A".data, "1 cup".data, "water".data, some "chilled".data⟩ ∧
    Ingredient.str ⟨"A".data, "1 cup".data, "water".data, some "chilled".data⟩
        = "A. (1 cup) water; chilled".data ∧
    Ingredient.make "A. (1 cup) water".data
        = .ok ⟨"A".data, "1 cup".data, "water".data, none⟩ ∧
    Ingredient.str ⟨"A".data, "1 cup".data, "water".data, none⟩
        = "A. (1 cup) water".data := by
  have h := ingredient_line_roundtrip "A".data "1 cup".data "water".data "chilled".data
    (by decide) (by decide) (by decide) (by decide) (by decide) (by decide) (by decide)
    (by decide) (by decide) (by decide)
  have e1 : "A".data ++ ". (".data ++ "1 cup".data ++ ") ".data ++ "water".data
      ++ "; ".data ++ "chilled".data = "A. (1 cup) water; chilled".data := rfl
  have e2 : "A".data ++ ". (".data ++ "1 cup".data ++ ") ".data ++ "water".data
      = "A. (1 cup) water".data := rfl
  refine ⟨?_, ?_, ?_, ?_⟩
  · rw [← e1]; exact h.1.1
  · rw [h.1.2]; exact e1
  · rw [← e2]; exact h.2.1
  · rw [h.2.2]; exact e2

/-- C10: a line ending in a bare semicolon (`ID. (QTY) NAME;`) parses
successfully with details bound to the empty string, and serialization treats
the empty details like absent details, dropping the semicolon — the line does
not round-trip byte for byte. -/
theorem ingredient_bare_semicolon (ID QTY NAME : List Char)
    (hID : ID ≠ []) (hIDu : ∀ c ∈ ID, c.isUpper = true)
    (hQ : QTY ≠ []) (hQc : ∀ x ∈ QTY, ¬ x = ')')
    (hN : NAME ≠ []) (hNc : ∀ x ∈ NAME, ¬ x = ';') (hNh : NAME.head? ≠ some ' ') :
    Ingredient.make (ID ++ ". (".data ++ QTY ++ ") ".data ++ NAME ++ [';'])
        = .ok ⟨ID, QTY, NAME, some []⟩ ∧
    Ingredient.str ⟨ID, QTY, NAME, some []⟩
        = ID ++ ". (".data ++ QTY ++ ") ".data ++ NAME ∧
    Ingredient.str ⟨ID, QTY, NAME, some []⟩
        ≠ ID ++ ". (".data ++ QTY ++ ") ".data ++ NAME ++ [';'] := by
  have hline : ID ++ ". (".data ++ QTY ++ ") ".data ++ NAME ++ [';']
      = ID ++ '.' :: ' ' :: '(' :: (QTY ++ ')' :: ' ' :: (NAME ++ [';'])) := by
    show ID ++ ['.', ' ', '('] ++ QTY ++ [')', ' '] ++ NAME ++ [';'] = _
    simp [List.append_assoc]
  have hstr : Ingredient.str ⟨ID, QTY, NAME, some []⟩
      = ID ++ ". (".data ++ QTY ++ ") ".data ++ NAME :=
    str_without_details ID QTY NAME (some []) rfl
  refine ⟨?_, hstr, ?_⟩
  · rw [hline, make_structured ID QTY NAME [';'] hID hIDu hQ hQc hN hNc hNh (Or.inl rfl)]
    rfl
  · rw [hstr]
    intro hcon
    have hlen := congrArg List.length hcon
    simp [List.length_append] at hlen

theorem ingredient_bare_semicolon_witness :
    Ingredient.make "A. (1 cup) water;".data
        = .ok ⟨"A".data, "1 cup".data, "water".data, some []⟩ ∧
    Ingredient.str ⟨"A".data, "1 cup".data, "water".data, some []⟩
        = "A. (1 cup) water".data ∧
    Ingredient.str ⟨"A".data, "1 cup".data, "water".data, some []⟩
        ≠ "A. (1 cup) water;".data := by
  have h := ingredient_bare_semicolon "A".data "1 cup".data "water".data
    (by decide) (by decide) (by decide) (by decide) (by decide) (by decide) (by decide)
  have e1 : "A".data ++ ". (".data ++ "1 cup".data ++ ") ".data ++ "water".data ++ [';']
      = "A. (1 cup) water;".data := rfl
  have e2 : "A".data ++ ". (".data ++ "1 cup".data ++ ") ".data ++ "water".data
      = "A. (1 cup) water".data := rfl
  refine ⟨?_, ?_, ?_⟩
  · rw [← e1]; exact h.1
  · rw [h.2.1]; exact e2
  · rw [← e1]; exact h.2.2

/-- C5: whenever the ingredient pattern matches but the parenthesized
quantity group is absent or empty, construction fails with the
missing-ingredient-quantity error, even though the group is syntactically
optional. -/
theorem ingredient_missing_quantity_failure (s : List Char) (m : IngFields)
    (h : ingMatch s = some m) (hq : truthy m.quantity = false) :
    Ingredient.make s = .error (.ingredientErr (missingQuantityMsg s)) := by
  have hne := ingMatch_idg_ne s m h
  obtain ⟨a, t, he⟩ := List.exists_cons_of_ne_nil hne
  simp [Ingredient.make, h, he, hq]

theorem ingredient_missing_quantity_failure_witness :
    Ingredient.make "A. () water".data
        = .error (.ingredientErr (missingQuantityMsg "A. () water".data)) :=
  ingredient_missing_quantity_failure "A. () water".data
    ⟨"A.".data, none, some "() water".data, none⟩ (by decide) (by decide)

/-- C6 counterexample: a line lacking the leading id token fails with the
generic invalid-ingredient-definition error, not with the field-specific
missing-ingredient-id error the claim asserts. -/
theorem ingredient_no_id_counterexample :
    Ingredient.make "(1 cup) water".data
        = .error (.ingredientErr (invalidIngredientMsg "(1 cup) water".data)) ∧
    Ingredient.make "(1 cup) water".data
        ≠ .error (.ingredientErr (missingIngredientIdMsg "(1 cup) water".data)) := by
  refine ⟨by decide, by decide⟩

/-- C6 amended: a line whose leading id token is absent makes the whole
pattern fail, so construction raises the generic invalid-definition error;
a successful match always carries a non-empty id group, so the
missing-ingredient-id branch is unreachable. -/
theorem ingredient_no_id_generic_failure (s : List Char) :
    (ingMatch s = none ↔
      s.takeWhile Char.isUpper = [] ∨ (s.dropWhile Char.isUpper).head? ≠ some '.') ∧
    (ingMatch s = none →
      Ingredient.make s = .error (.ingredientErr (invalidIngredientMsg s))) ∧
    (∀ m, ingMatch s = some m → m.idg ≠ []) := by
  refine ⟨⟨?_, ?_⟩, ?_, fun m hm => ingMatch_idg_ne s m hm⟩
  · intro h
    by_contra hcon
    push_neg at hcon
    obtain ⟨h1, h2⟩ := hcon
    obtain ⟨a, t, ha⟩ := List.exists_cons_of_ne_nil h1
    obtain ⟨r, hr⟩ : ∃ r, s.dropWhile Char.isUpper = '.' :: r := by
      cases hd : s.dropWhile Char.isUpper with
      | nil => rw [hd] at h2; cases h2
      | cons c cs =>
        rw [hd] at h2
        have : c = '.' := by simpa using h2
        exact ⟨cs, by rw [this]⟩
    simp only [ingMatch, ha, hr] at h
    cases h
  · intro h12
    cases hm : ingMatch s with
    | none => rfl
    | some m =>
      exfalso
      obtain ⟨a, t, r1, heq1, heq2, -⟩ := ingMatch_some_inv s m hm
      rcases h12 with h1 | h2
      · rw [h1] at heq1; cases heq1
      · exact h2 (by rw [heq2]; rfl)
  · intro h
    simp [Ingredient.make, h]

theorem ingredient_no_id_generic_failure_witness :
    Ingredient.make "water only".data
        = .error (.ingredientErr (invalidIngredientMsg "water only".data)) :=
  (ingredient_no_id_generic_failure "water only".data).2.1 (by decide)

/-- C2: the parenthesized quantity list of a step is genuinely optional
(absence yields the empty default, presence stores the exact text with no
splitting), but serialization is not the exact inverse of parsing: `__str__`
joins the characters of the stored string with a comma-space, so
`1. (2A) mix` parses fine yet serializes to `1. (2, A) mix`. -/
theorem step_quantities_join_divergence :
    Step.make "1. (2A) mix".data
        = .ok ⟨"1".data, some "2A".data, "mix".data, none⟩ ∧
    Step.make "1. mix".data = .ok ⟨"1".data, none, "mix".data, none⟩ ∧
    Step.str ⟨"1".data, some "2A".data, "mix".data, none⟩ = "1. (2, A) mix".data ∧
    "1. (2, A) mix".data ≠ "1. (2A) mix".data := by
  refine ⟨by decide, by decide, by decide, by decide⟩

/-- C7 counterexample: a recipe whose ingredient lines reuse the id `A`
constructs successfully, so ingredient ids are not pairwise distinct. -/
theorem recipe_duplicate_ids_counterexample :
    (Recipe.make [] dupIngredientData).map (fun r => r.ingredients.map Ingredient.id)
        = .ok ["A".data, "A".data] ∧
    ¬ List.Pairwise (fun a b => a ≠ b) [("A".data : List Char), "A".data] := by
  refine ⟨by decide, by decide⟩

/-- C7 amended: construction never checks distinctness; what holds is that
every ingredient id of a successfully constructed Recipe is a non-empty
string of uppercase letters (in appearance order), while duplicates are
allowed. -/
theorem recipe_ingredient_id_shape (fresh : List Char) (d : YamlMap) (r : Recipe)
    (h : Recipe.make fresh d = .ok r) :
    ∀ i ∈ r.ingredients, i.id ≠ [] ∧ ∀ c ∈ i.id, c.isUpper = true := by
  obtain ⟨ils, sls, hils, hsls, hig, hsp⟩ := recipe_ok_inversion fresh d r h
  have hfa := (mapE_ok_iff Ingredient.make ils r.ingredients).mp hig
  intro i hi
  obtain ⟨line, hline⟩ := forall₂_mem_right hfa i hi
  exact ingredient_ok_id_shape line i hline

theorem recipe_ingredient_id_shape_witness :
    (Ingredient.mk "A".data "1 cup".data "water".data none).id ≠ [] ∧
    Char.isUpper 'A' = true := by
  have h := recipe_ingredient_id_shape [] teaData teaRecipe (by decide)
  have h2 := h ⟨"A".data, "1 cup".data, "water".data, none⟩ (by decide)
  exact ⟨h2.1, h2.2 'A' (by decide)⟩

/-- C3: Recipe construction from a mapping with a truthy title — an empty
source ingredient list fails with the one-or-more-ingredients message; a
first ingredient-parse failure propagates as-is, before the emptiness check;
an empty step list (after good ingredients) fails with the one-or-more-steps
message; and well-formed ingredient and step lines produce a Recipe exposing
both sequences in source appearance order. -/
theorem recipe_construction (fresh : List Char) (d : YamlMap) (t : List Char)
    (ht : d.title = some t) (htne : t ≠ []) :
    (d.ingredients = some [] →
      Recipe.make fresh d = .error (.recipeErr recipeIngredientsMsg)) ∧
    (∀ ils e, d.ingredients = some ils → mapE Ingredient.make ils = .error e →
      Recipe.make fresh d = .error e) ∧
    (∀ ils igs, d.ingredients = some ils → mapE Ingredient.make ils = .ok igs →
      igs ≠ [] → d.steps = some [] →
      Recipe.make fresh d = .error (.recipeErr recipeStepsMsg)) ∧
    (∀ ils sls igs sps, d.ingredients = some ils → d.steps = some sls →
      mapE Ingredient.make ils = .ok igs → igs ≠ [] →
      mapE Step.make sls = .ok sps → sps ≠ [] →
      ∃ r, Recipe.make fresh d = .ok r ∧ r.title = t ∧
        r.ingredients = igs ∧ r.steps = sps ∧
        List.Forall₂ (fun line i => Ingredient.make line = .ok i) ils igs ∧
        List.Forall₂ (fun line st => Step.make line = .ok st) sls sps) := by
  obtain ⟨t0, tt, rfl⟩ := List.exists_cons_of_ne_nil htne
  refine ⟨?_, ?_, ?_, ?_⟩
  · intro hi
    simp [Recipe.make, ht, hi, truthy, mapE]
  · intro ils e hi he
    simp [Recipe.make, ht, hi, he, truthy]
  · intro ils igs hi hok hne hs
    obtain ⟨g0, gt, rfl⟩ := List.exists_cons_of_ne_nil hne
    simp [Recipe.make, ht, hi, hok, hs, truthy, mapE]
  · intro ils sls igs sps hi hs hok hgne hsok hsne
    obtain ⟨g0, gt, rfl⟩ := List.exists_cons_of_ne_nil hgne
    obtain ⟨s0, st, rfl⟩ := List.exists_cons_of_ne_nil hsne
    refine ⟨⟨d.id.getD fresh, d.sources.getD [], t0 :: tt, g0 :: gt, s0 :: st, [],
      d.tags.getD []⟩, ?_, rfl, rfl, rfl,
      (mapE_ok_iff Ingredient.make ils (g0 :: gt)).mp hok,
      (mapE_ok_iff Step.make sls (s0 :: st)).mp hsok⟩
    simp [Recipe.make, ht, hi, hs, hok, hsok, truthy]

theorem recipe_construction_witness :
    (Recipe.make [] noIngredientsData = .error (.recipeErr recipeIngredientsMsg)) ∧
    ∃ r, Recipe.make [] teaData = .ok r ∧ r.title = "Tea".data ∧
      r.ingredients = [⟨"A".data, "1 cup".data, "water".data, none⟩] ∧
      r.steps = [⟨"1".data, none, "boil".data, none⟩] ∧
      List.Forall₂ (fun line i => Ingredient.make line = .ok i)
        ["A. (1 cup) water".data] [⟨"A".data, "1 cup".data, "water".data, none⟩] ∧
      List.Forall₂ (fun line st => Step.make line = .ok st)
        ["1. boil".data] [⟨"1".data, none, "boil".data, none⟩] := by
  constructor
  · exact (recipe_construction [] noIngredientsData "T".data rfl (by decide)).1 rfl
  · exact (recipe_construction [] teaData "Tea".data rfl (by decide)).2.2.2
      ["A. (1 cup) water".data] ["1. boil".data]
      [⟨"A".data, "1 cup".data, "water".data, none⟩]
      [⟨"1".data, none, "boil".data, none⟩]
      rfl rfl (by decide) (by decide) (by decide) (by decide)

/-- C9: a decoded mapping that lacks the `ingredients` key (or, with good
non-empty ingredients, the `steps` key) makes Recipe construction raise a
plain KeyError, which is not a CookbookException, so `_process_file` wraps it
as the unexpected-exception source error rather than a document error. -/
theorem recipe_missing_key_keyerror (fresh : List Char) (d : YamlMap) (t : List Char)
    (ht : d.title = some t) (htne : t ≠ []) :
    (d.ingredients = none → Recipe.make fresh d = .error (.keyError "ingredients".data)) ∧
    (∀ ils igs, d.ingredients = some ils → mapE Ingredient.make ils = .ok igs →
      igs ≠ [] → d.steps = none →
      Recipe.make fresh d = .error (.keyError "steps".data)) ∧
    (∀ k, CookErr.isCookbook (.keyError k) = false) ∧
    (∀ (f : FileEntry) (rs : List Recipe) (m : YamlMap) (k : List Char),
      f.content = .doc m → Recipe.make f.fresh m = .error (.keyError k) →
      processFile f rs = .error ⟨f.path, unexpectedMsg, .keyError k⟩) := by
  obtain ⟨t0, tt, rfl⟩ := List.exists_cons_of_ne_nil htne
  refine ⟨?_, ?_, fun k => rfl, ?_⟩
  · intro hi
    simp [Recipe.make, ht, hi, truthy]
  · intro ils igs hi hok hne hs
    obtain ⟨g0, gt, rfl⟩ := List.exists_cons_of_ne_nil hne
    simp [Recipe.make, ht, hi, hok, hs, truthy]
  · intro f rs m k hc hr
    simp [processFile, hc, hr, CookErr.isCookbook]

theorem recipe_missing_key_keyerror_witness :
    Recipe.make [] noStepsData = .error (.keyError "steps".data) ∧
    processFile ⟨"t.yaml".data, "/in/t.yaml".data, .doc noStepsData, [], none⟩ []
      = .error ⟨"/in/t.yaml".data, unexpectedMsg, .keyError "steps".data⟩ := by
  have h := recipe_missing_key_keyerror [] noStepsData "T".data rfl (by decide)
  have hmk : Recipe.make [] noStepsData = .error (.keyError "steps".data) :=
    h.2.1 ["A. (1) x".data] [⟨"A".data, "1".data, "x".data, none⟩]
      rfl (by decide) (by decide) rfl
  exact ⟨hmk, h.2.2.2 ⟨"t.yaml".data, "/in/t.yaml".data, .doc noStepsData, [], none⟩
    [] noStepsData "steps".data rfl hmk⟩

/-- C4: `load_recipes` raises exactly when some candidate file fails, and the
error it raises is the source error of the first failing candidate — a
`SourceException` carrying that file's path and wrapping the original cause;
no lower-level exception crosses the loader boundary. -/
theorem load_recipes_fail_fast (inputs : List InputPath) (e : SrcErr) :
    (load_recipes inputs = .error e ↔
      ∃ l₁ f l₂, candidates inputs = l₁ ++ f :: l₂ ∧ (∀ g ∈ l₁, fileFails g = false) ∧
        fileFails f = true ∧ e = srcErrOf f) ∧
    (∀ f : FileEntry, fileFails f = true →
      ∃ c, origFailure f = some c ∧ (srcErrOf f).filename = f.path ∧
        (srcErrOf f).cause = c) := by
  refine ⟨?_, srcErrOf_shape⟩
  rw [load_recipes_eq]
  exact processSeq_error_iff (candidates inputs) [] e

theorem load_recipes_fail_fast_witness :
    load_recipes badInputs
      = .error ⟨"/in/bad.yaml".data, [], .recipeErr recipeIngredientsMsg⟩ :=
  (load_recipes_fail_fast badInputs
      ⟨"/in/bad.yaml".data, [], .recipeErr recipeIngredientsMsg⟩).1.mpr
    ⟨[], badFile, [], by decide, by simp, by decide, by decide⟩

/-- C8: when every candidate recipe file is well-formed, `load_recipes`
returns exactly one Recipe per candidate; the reserved manifest name never
appears among the candidates (for directory walks and direct file inputs
alike); and `load_book` builds its single Book from the first manifest match
across the inputs in order. -/
theorem load_yields_n_recipes_one_book (inputs : List InputPath) (c : FileContent) (b : Book)
    (h : ∀ f ∈ candidates inputs, ∃ m r, f.content = .doc m ∧ Recipe.make f.fresh m = .ok r) :
    (∃ rs, load_recipes inputs = .ok rs ∧ rs.length = (candidates inputs).length) ∧
    (∀ f ∈ candidates inputs, ¬ f.name = bookYaml) ∧
    ((manifests inputs).head? = some c → bookFromContent c = .ok b →
      load_book inputs = .ok (some b)) := by
  refine ⟨?_, candidates_no_manifest inputs, ?_⟩
  · obtain ⟨out, hout, hlen⟩ := processSeq_wellformed (candidates inputs) [] h
    exact ⟨out, by rw [load_recipes_eq]; simpa using hout, hlen⟩
  · intro hm hb
    rw [load_book_eq, hm]
    simp [hb]

theorem load_yields_n_recipes_one_book_witness :
    (∃ rs, load_recipes sampleDirInputs = .ok rs ∧ rs.length = 1) ∧
    load_book sampleDirInputs = .ok (some sampleBook) := by
  have h := load_yields_n_recipes_one_book sampleDirInputs (.doc bookData) sampleBook
    (by
      intro f hf
      have hc : candidates sampleDirInputs = [teaFile] := by decide
      rw [hc] at hf
      have hft : f = teaFile := by simpa using hf
      subst hft
      exact ⟨teaData, teaRecipe, rfl, by decide⟩)
  refine ⟨?_, h.2.2 (by decide) (by decide)⟩
  obtain ⟨rs, h1, h2⟩ := h.1
  refine ⟨rs, h1, ?_⟩
  rw [h2]
  decide

end Cookbook
